import Mathlib

/-!
Verification of the slack-shell relay program (src/main.go, the paginated
variant). We give a shallow embedding of its core: `ParseMessage`, the
stream-drainer goroutine loops, the shared output accumulator, and the
pagination relay loop of `main`, and prove theorems checking the
specification's claims against this embedding.

Go strings are byte strings; we model them as `List Nat` of byte values,
so that `len`, slicing, `strings.Split(· , " ")`, and base64 all act on
bytes exactly as in Go.
-/

/-- Byte encoding of an ASCII string literal (every literal used below is
ASCII, where UTF-8 is one byte per character, so mapping each character to
its code point gives the Go byte string). -/
def asciiBytes (s : String) : List Nat := s.data.map Char.toNat

/-- Fuel-indexed scan of Go's strings.ReplaceAll on byte strings: at each
position, if the (non-empty) pattern matches, emit the replacement and skip
past the match; otherwise keep the byte and advance one. The fuel is the
input length, which always suffices because each step consumes at least one
input byte. -/
def replaceAllF (pat rep : List Nat) : Nat → List Nat → List Nat
  | 0, s => s
  | _ + 1, [] => []
  | fuel + 1, b :: rest =>
    if pat.isPrefixOf (b :: rest) ∧ pat ≠ [] then
      rep ++ replaceAllF pat rep fuel (rest.drop (pat.length - 1))
    else
      b :: replaceAllF pat rep fuel rest

/-- Go strings.ReplaceAll(s, pat, rep) on byte strings. -/
def replaceAll (pat rep s : List Nat) : List Nat := replaceAllF pat rep s.length s

/-- Whether Go's url.QueryEscape leaves byte b unescaped: alphanumerics and
the bytes of the characters minus, underscore, dot, tilde. -/
def isUnreservedByte (b : Nat) : Bool :=
  (48 ≤ b && b ≤ 57) || (65 ≤ b && b ≤ 90) || (97 ≤ b && b ≤ 122) ||
    b == 45 || b == 95 || b == 46 || b == 126

/-- Uppercase hex digit byte of a value below 16. -/
def hexDigit (n : Nat) : Nat := if n < 10 then 48 + n else 55 + n

/-- Escaping of one byte by Go's url.QueryEscape: unreserved bytes kept,
space becomes the plus byte, everything else percent-encoded uppercase. -/
def escapeByte (b : Nat) : List Nat :=
  if isUnreservedByte b then [b]
  else if b = 32 then [43]
  else [37, hexDigit (b / 16), hexDigit (b % 16)]

/-- Go url.QueryEscape on byte strings (byte-by-byte escaping). -/
def queryEscape (s : List Nat) : List Nat := (s.map escapeByte).flatten

/-- Value of a hex digit byte, or none if the byte is not a hex digit. -/
def unhex (b : Nat) : Option Nat :=
  if 48 ≤ b ∧ b ≤ 57 then some (b - 48)
  else if 65 ≤ b ∧ b ≤ 70 then some (b - 55)
  else if 97 ≤ b ∧ b ≤ 102 then some (b - 87)
  else none

/-- Go url.QueryUnescape on byte strings: percent followed by two hex digits
decodes to a byte, a plus decodes to a space, other bytes are kept; a
malformed percent sequence is an error (none). -/
def queryUnescape : List Nat → Option (List Nat)
  | [] => some []
  | 37 :: h :: l :: rest =>
    match unhex h, unhex l, queryUnescape rest with
    | some hi, some lo, some r => some ((hi * 16 + lo) :: r)
    | _, _, _ => none
  | 37 :: _ => none
  | 43 :: rest => (queryUnescape rest).map (fun r => 32 :: r)
  | b :: rest => (queryUnescape rest).map (fun r => b :: r)

/-- The source discards the unescape error: `message, _ = url.QueryUnescape(x)`
keeps the empty string that QueryUnescape returns together with an error. -/
def queryUnescapeLossy (s : List Nat) : List Nat := (queryUnescape s).getD []

/-- The three Slack entity unescapes of ParseMessage, in source order:
first the amp entity, then lt, then gt. -/
def unescapeEntities (s : List Nat) : List Nat :=
  replaceAll (asciiBytes "&gt;") (asciiBytes ">")
    (replaceAll (asciiBytes "&lt;") (asciiBytes "<")
      (replaceAll (asciiBytes "&amp;") (asciiBytes "&") s))

/-- Go strings.Contains(s, pat) on byte strings: whether pat occurs as a
contiguous substring of s. -/
def hasSub (pat : List Nat) : List Nat → Bool
  | [] => pat.isPrefixOf []
  | b :: rest => pat.isPrefixOf (b :: rest) || hasSub pat rest

/-- The non-breaking-space normalization of ParseMessage: the message is
url-query-escaped; if the escaped form contains the percent encoding of a
non-breaking space, those occurrences are replaced by a plus and the result
unescaped, the error being discarded. Otherwise the message is unchanged. -/
def nbspFix (s : List Nat) : List Nat :=
  let esc := queryEscape s
  if hasSub (asciiBytes "%C2%A0") esc then
    queryUnescapeLossy (replaceAll (asciiBytes "%C2%A0") (asciiBytes "+") esc)
  else s

/-- Go strings.Split(s, " ") on byte strings: the pieces between single
space bytes; n separator occurrences yield n + 1 pieces. -/
def goSplit : List Nat → List (List Nat)
  | [] => [[]]
  | b :: rest =>
    if b = 32 then [] :: goSplit rest
    else
      match goSplit rest with
      | [] => [[b]]
      | p :: ps => (b :: p) :: ps

/-- Go strings.Join(pieces, " ") on byte strings. -/
def goJoin : List (List Nat) → List Nat
  | [] => []
  | [p] => p
  | p :: q :: rest => p ++ 32 :: goJoin (q :: rest)

/-- The standard base64 alphabet: ASCII byte of sextet n. -/
def b64tbl (n : Nat) : Nat :=
  if n < 26 then 65 + n
  else if n < 52 then 97 + (n - 26)
  else if n < 62 then 48 + (n - 52)
  else if n = 62 then 43
  else 47

/-- Go base64.StdEncoding.EncodeToString on byte strings, including the
padding byte 61 (the equals sign). -/
def b64encode : List Nat → List Nat
  | [] => []
  | [a] => [b64tbl (a / 4), b64tbl (a % 4 * 16), 61, 61]
  | [a, b] => [b64tbl (a / 4), b64tbl (a % 4 * 16 + b / 16), b64tbl (b % 16 * 4), 61]
  | a :: b :: cc :: rest =>
    b64tbl (a / 4) :: b64tbl (a % 4 * 16 + b / 16) ::
      b64tbl (b % 16 * 4 + cc / 64) :: b64tbl (cc % 64) :: b64encode rest

/-- Inverse of the base64 alphabet: sextet value of an alphabet byte, none
for a byte outside the alphabet (in particular for the padding byte 61). -/
def b64untbl (b : Nat) : Option Nat :=
  if 65 ≤ b ∧ b ≤ 90 then some (b - 65)
  else if 97 ≤ b ∧ b ≤ 122 then some (b - 71)
  else if 48 ≤ b ∧ b ≤ 57 then some (b + 4)
  else if b = 43 then some 62
  else if b = 47 then some 63
  else none

/-- Standard base64 decoder on byte strings, used to state the round-trip
property: groups of four alphabet bytes decode to three bytes, with the
final group allowed one or two padding bytes. -/
def b64decode : List Nat → Option (List Nat)
  | [] => some []
  | w :: x :: y :: z :: rest =>
    if rest = [] ∧ y = 61 ∧ z = 61 then
      match b64untbl w, b64untbl x with
      | some a, some b => some [a * 4 + b / 16]
      | _, _ => none
    else if rest = [] ∧ z = 61 then
      match b64untbl w, b64untbl x, b64untbl y with
      | some a, some b, some cc => some [a * 4 + b / 16, b % 16 * 16 + cc / 4]
      | _, _, _ => none
    else
      match b64untbl w, b64untbl x, b64untbl y, b64untbl z, b64decode rest with
      | some a, some b, some cc, some d, some tl =>
        some ((a * 4 + b / 16) :: (b % 16 * 16 + cc / 4) :: (cc % 4 * 64 + d) :: tl)
      | _, _, _, _, _ => none
  | _ => none

/-- Result of ParseMessage. The ok case carries the bash execution string and
the readable command text, matching the pair of strings the Go function
returns with a nil error. The emptyCmd case is the "Empty command received"
error return. The panicked case marks the out-of-range slice
Split(message, " ")[2:] taken on fewer than two tokens, which in Go is a
runtime panic, not a return. -/
inductive ParseResult where
  | ok (command readable : List Nat)
  | emptyCmd
  | panicked
deriving DecidableEq

/-- Bytes of the execution-string text before the base64 payload. -/
def cmdPreBytes : List Nat := asciiBytes "bash -c \x7becho,"

/-- Bytes of the execution-string text after the base64 payload. -/
def cmdPostBytes : List Nat := asciiBytes "\x7d|\x7bbase64,-d\x7d|bash"

/-- ParseMessage from src/main.go: unescape the three entities, normalize the
non-breaking-space artifact, split on spaces, drop the first two tokens
(a slice that panics when there are fewer than two), rejoin; an empty
remainder is an error; otherwise wrap the base64 of the remainder in the
bash execution string and return it with the readable command text. -/
def ParseMessage (message : List Nat) : ParseResult :=
  let m := nbspFix (unescapeEntities message)
  let tokens := goSplit m
  if tokens.length < 2 then ParseResult.panicked
  else
    let cmdText := goJoin (tokens.drop 2)
    if cmdText = [] then ParseResult.emptyCmd
    else ParseResult.ok (cmdPreBytes ++ b64encode cmdText ++ cmdPostBytes) cmdText

/-- One result of buf.ReadLine() as seen by a drainer goroutine: a complete
line, clean end of stream, or a read error carrying some error code. -/
inductive ReadEvent where
  | line (l : List Nat)
  | eof
  | readErr (code : Nat)
deriving DecidableEq

/-- The drainer goroutine loop of main: read lines in a loop, appending each
line plus a newline byte to the accumulator; on any non-nil error (end of
stream or otherwise) break and set the completion flag. The result is the
final accumulator together with the completion flag; an exhausted event list
without a terminator leaves the goroutine still blocked reading, so the flag
stays false. -/
def drainLines (acc : List Nat) : List ReadEvent → List Nat × Bool
  | [] => (acc, false)
  | ReadEvent.line l :: rest => drainLines (acc ++ l ++ [10]) rest
  | ReadEvent.eof :: _ => (acc, true)
  | ReadEvent.readErr _ :: _ => (acc, true)

/-- The shared state written by the two drainer goroutines and read by the
relay loop: the accumulator string toSend and the two completion flags. -/
structure AccState where
  toSend : List Nat
  stdoutFinished : Bool
  stderrFinished : Bool
deriving DecidableEq

/-- Idealized atomic mutation of the shared state: append a line plus
newline in one indivisible step (only while that drainer has not finished),
or set a completion flag to true. This is the guarded-buffer discipline the
specification prescribes for the accumulator, not the semantics of the
source: the code's unsynchronized `toSend += line + newline` is a separate
read and store, modelled faithfully by RaceThread below, and does not
refine these steps. -/
inductive AccStep : AccState → AccState → Prop where
  | outLine (s : AccState) (l : List Nat) (h : s.stdoutFinished = false) :
      AccStep s { s with toSend := s.toSend ++ l ++ [10] }
  | errLine (s : AccState) (l : List Nat) (h : s.stderrFinished = false) :
      AccStep s { s with toSend := s.toSend ++ l ++ [10] }
  | outDone (s : AccState) : AccStep s { s with stdoutFinished := true }
  | errDone (s : AccState) : AccStep s { s with stderrFinished := true }

/-- Reachability in zero or more idealized atomic drainer steps. -/
inductive AccReach : AccState → AccState → Prop where
  | refl (s : AccState) : AccReach s s
  | tail {a b c : AccState} (h₁ : AccReach a b) (h₂ : AccStep b c) : AccReach a c

/-- One drainer goroutine as a racing thread: the lines it still has to
append, and the optional staged value of the unsynchronized
`toSend += line + newline`, which Go executes as a read of toSend followed
by a separate store of the concatenation. -/
structure RaceThread where
  pending : List (List Nat)
  staged : Option (List Nat)
deriving DecidableEq

/-- Shared accumulator plus the two racing drainer threads. -/
structure RaceState where
  toSend : List Nat
  thA : RaceThread
  thB : RaceThread
deriving DecidableEq

/-- One atomic machine action of a thread: with nothing staged and a pending
line, read the shared toSend and stage the concatenation; with a staged
value, store it to toSend and pop the line. Returns the new shared string
and thread state. -/
def raceStepThread (shared : List Nat) (th : RaceThread) : List Nat × RaceThread :=
  match th.staged, th.pending with
  | none, l :: _ => (shared, { th with staged := some (shared ++ l ++ [10]) })
  | some v, _ :: rest => (v, { pending := rest, staged := none })
  | _, _ => (shared, th)

/-- Execute one atomic action of thread A (pickA true) or thread B. -/
def raceStep (s : RaceState) (pickA : Bool) : RaceState :=
  if pickA then
    let p := raceStepThread s.toSend s.thA
    { s with toSend := p.1, thA := p.2 }
  else
    let p := raceStepThread s.toSend s.thB
    { s with toSend := p.1, thB := p.2 }

/-- Run a schedule of interleaved atomic actions of the two threads. -/
def raceRun : RaceState → List Bool → RaceState
  | s, [] => s
  | s, pick :: rest => raceRun (raceStep s pick) rest

/-- Interleaving of two sequences of appended records preserving each side's
own order: the atomic-append executions of the two drainers. -/
inductive Merged : List (List Nat) → List (List Nat) → List (List Nat) → Prop where
  | nil : Merged [] [] []
  | left {la lb m : List (List Nat)} (l : List Nat) (h : Merged la lb m) :
      Merged (l :: la) lb (l :: m)
  | right {la lb m : List (List Nat)} (l : List Nat) (h : Merged la lb m) :
      Merged la (l :: lb) (l :: m)

/-- Accumulator text produced by executing a sequence of line appends
atomically in order: each step is `toSend += line + newline`. -/
def accText (chunks : List (List Nat)) : List Nat :=
  chunks.foldl (fun acc l => acc ++ l ++ [10]) []

/-- A call the relay loop makes to the message sink: update the active
message in place, or create a new linked reply. -/
inductive SinkEvent where
  | update (body : List Nat)
  | reply (body : List Nat)
deriving DecidableEq

/-- Outcome of running the relay loop with a given amount of fuel: the loop
breaks out (finished, carrying the emitted events in order and the final
index, needsNewReply and hasFinished values), hits a slice-bounds panic, or
is still looping when the fuel runs out. -/
inductive LoopResult where
  | finished (events : List SinkEvent) (index : Nat) (needsNewReply hasFinished : Bool)
  | panicked (events : List SinkEvent)
  | outOfFuel (events : List SinkEvent)
deriving DecidableEq

/-- Prepend an event emitted before the rest of the run. -/
def LoopResult.push (e : SinkEvent) : LoopResult → LoopResult
  | LoopResult.finished evs i nn hf => LoopResult.finished (e :: evs) i nn hf
  | LoopResult.panicked evs => LoopResult.panicked (e :: evs)
  | LoopResult.outOfFuel evs => LoopResult.outOfFuel (e :: evs)

/-- Go slice expression s[a:b] on a byte string: defined when
0 ≤ a ≤ b ≤ len(s), otherwise a runtime panic (none). The bounds are
integers because the loop slices up to len(now) - 1, which is negative on
an empty accumulator. -/
def goSlice (s : List Nat) (a b : Int) : Option (List Nat) :=
  if 0 ≤ a ∧ a ≤ b ∧ b ≤ (s.length : Int) then
    some ((s.drop a.toNat).take (b - a).toNat)
  else none

/-- One iteration body of the pagination relay loop of main, acting on the
snapshot `now`: crossing a page boundary finalizes the active page with the
full chunk and enters overflow mode; in overflow mode a new linked reply
carries either the next full chunk or the remaining tail
now[charLimit * index : len(now) - 1]; otherwise the active page is updated
in place with that tail. Returns the emitted event, the new index and the
new needsNewReply, or none on a slice panic. -/
def runTick (c : Nat) (now : List Nat) (index : Nat) (needsNewReply : Bool) :
    Option (SinkEvent × Nat × Bool) :=
  if now.length > c * (index + 1) ∧ needsNewReply = false then
    (goSlice now ((c * index : Nat) : Int) ((c * (index + 1) : Nat) : Int)).map
      (fun b => (SinkEvent.update b, index + 1, true))
  else if needsNewReply = true then
    if now.length > c * (index + 1) then
      (goSlice now ((c * index : Nat) : Int) ((c * (index + 1) : Nat) : Int)).map
        (fun b => (SinkEvent.reply b, index + 1, true))
    else
      (goSlice now ((c * index : Nat) : Int) ((now.length : Int) - 1)).map
        (fun b => (SinkEvent.reply b, index, false))
  else
    (goSlice now ((c * index : Nat) : Int) ((now.length : Int) - 1)).map
      (fun b => (SinkEvent.update b, index, false))

/-- The pagination relay loop of main. textAt t is the snapshot
`now := toSend` read at tick t (the code re-reads toSend inside the first
branch; within one tick we use the same snapshot). finishedAt t is the value
of `stdoutFinished && stderrFinished` sampled at the end of tick t. Each
iteration runs one tick, then breaks once hasFinished holds and no new
reply is pending, else records `hasFinished = hasFinished || finishedAt t`
and continues after the sleep. Fuel bounds the number of iterations
modelled; a run that is still looping returns outOfFuel. -/
def runLoop (c : Nat) (textAt : Nat → List Nat) (finishedAt : Nat → Bool) :
    Nat → Nat → Nat → Bool → Bool → LoopResult
  | 0, _, _, _, _ => LoopResult.outOfFuel []
  | fuel + 1, t, index, needsNewReply, hasFinished =>
    match runTick c (textAt t) index needsNewReply with
    | none => LoopResult.panicked []
    | some (e, index', needsNew') =>
      if hasFinished = true ∧ needsNew' = false then
        LoopResult.finished [e] index' needsNew' hasFinished
      else
        LoopResult.push e
          (runLoop c textAt finishedAt fuel (t + 1) index' needsNew'
            (hasFinished || finishedAt t))

/-- Effect of one sink call on the thread's pages: SlackUpdateMessage
overwrites the most recently created message, SlackNewReply appends a new
one (which becomes the target of later updates). -/
def applyEvent (pages : List (List Nat)) : SinkEvent → List (List Nat)
  | SinkEvent.update b => pages.dropLast ++ [b]
  | SinkEvent.reply b => pages ++ [b]

/-- Body of the first reply created before the loop starts: page zero. -/
def greeting : List Nat := asciiBytes "Output is coming :P"

/-- Final page bodies shown in the thread after a run: the greeting page
followed by the effect of every emitted event in order. -/
def finalPages (evs : List SinkEvent) : List (List Nat) :=
  evs.foldl applyEvent [greeting]

/-- Completion marker of the specification: the fixed trailing text
"Command finished" preceded by a newline, appended by the second,
non-paginated variant of main.go. The paginated relay loop verified here
appends no such marker; it only logs completion to the local console. -/
def completionMarker : List Nat := asciiBytes "\nCommand finished"

/-! ### Helper lemmas about slices and single ticks -/

theorem goSlice_chunk (s : List Nat) (a b : Nat) (hab : a ≤ b) (hb : b ≤ s.length) :
    goSlice s a b = some ((s.drop a).take (b - a)) := by
  have h₁ : ((a : Int)).toNat = a := by omega
  have h₂ : ((b : Int) - (a : Int)).toNat = b - a := by omega
  rw [goSlice, if_pos]
  · rw [h₁, h₂]
  · exact ⟨by omega, by omega, by omega⟩

theorem goSlice_tail (s : List Nat) (a : Nat) (ha : a < s.length) :
    goSlice s a ((s.length : Int) - 1) = some ((s.drop a).dropLast) := by
  rw [goSlice, if_pos]
  · have h₁ : ((a : Int)).toNat = a := by omega
    have h₂ : ((s.length : Int) - 1 - a).toNat = s.length - 1 - a := by omega
    have h₃ : s.length - 1 - a = s.length - a - 1 := by omega
    rw [h₁, h₂, h₃, List.dropLast_eq_take, List.length_drop]
  · exact ⟨by omega, by omega, by omega⟩

theorem take_chunk_dropLast (xs : List Nat) (c : Nat) (hc : c < xs.length) :
    xs.take c ++ (xs.drop c).dropLast = xs.dropLast := by
  rw [List.dropLast_eq_take, List.dropLast_eq_take, List.length_drop]
  have h : xs.length - 1 = c + (xs.length - c - 1) := by omega
  rw [h, List.take_add]

theorem runTick_boundary (c : Nat) (now : List Nat) (i : Nat)
    (h : now.length > c * (i + 1)) :
    runTick c now i false =
      some (SinkEvent.update ((now.drop (c * i)).take c), i + 1, true) := by
  have hcc : c * (i + 1) = c * i + c := by ring
  rw [runTick, if_pos ⟨h, rfl⟩,
    goSlice_chunk now (c * i) (c * (i + 1)) (by omega) (by omega)]
  have h₂ : c * (i + 1) - c * i = c := by omega
  rw [h₂, Option.map_some']

theorem runTick_replyMore (c : Nat) (now : List Nat) (i : Nat)
    (h : now.length > c * (i + 1)) :
    runTick c now i true =
      some (SinkEvent.reply ((now.drop (c * i)).take c), i + 1, true) := by
  have hcc : c * (i + 1) = c * i + c := by ring
  rw [runTick, if_neg (by simp), if_pos rfl, if_pos h,
    goSlice_chunk now (c * i) (c * (i + 1)) (by omega) (by omega)]
  have h₂ : c * (i + 1) - c * i = c := by omega
  rw [h₂, Option.map_some']

theorem runTick_replyTail (c : Nat) (now : List Nat) (i : Nat)
    (h : ¬ now.length > c * (i + 1)) (h₂ : c * i < now.length) :
    runTick c now i true =
      some (SinkEvent.reply ((now.drop (c * i)).dropLast), i, false) := by
  rw [runTick, if_neg (by simp), if_pos rfl, if_neg h, goSlice_tail now (c * i) h₂,
    Option.map_some']

theorem runTick_updateTail (c : Nat) (now : List Nat) (i : Nat)
    (h : ¬ now.length > c * (i + 1)) (h₂ : c * i < now.length) :
    runTick c now i false =
      some (SinkEvent.update ((now.drop (c * i)).dropLast), i, false) := by
  rw [runTick, if_neg (by simp [h]), if_neg (by simp), goSlice_tail now (c * i) h₂,
    Option.map_some']

theorem runTick_nil (c i : Nat) (nn : Bool) : runTick c [] i nn = none := by
  have hs : goSlice [] ((c * i : Nat) : Int) ((List.length ([] : List Nat) : Int) - 1) = none := by
    rw [goSlice, if_neg]
    intro hcon
    simp only [List.length_nil] at hcon
    omega
  cases nn with
  | false => rw [runTick, if_neg (by simp), if_neg (by simp), hs, Option.map_none']
  | true => rw [runTick, if_neg (by simp), if_pos rfl, if_neg (by simp), hs, Option.map_none']

/-- Claim C2: the code panics on an empty accumulated text. With both
completion flags true (any flag history, in fact) and an empty snapshot, the
very first tick evaluates now[0 : len(now) - 1] = now[0 : -1], a slice
bounds panic, so no page is produced at all, let alone one carrying a
completion marker. -/
theorem relay_empty_text_panics (c : Nat) (finishedAt : Nat → Bool)
    (fuel t index : Nat) (hf : Bool) :
    runLoop c (fun _ => []) finishedAt (fuel + 1) t index false hf =
      LoopResult.panicked [] := by
  simp only [runLoop, runTick_nil]

/-- Claim C1 counterexample: accumulated text of three bytes with
charLimit 3000. The relay finishes after two in-place updates of the single
page; the page count 1 matches ceil(3 / 3000) = 1, but the concatenation of
the final page bodies is two bytes, not the accumulated text: the tail slice
now[0 : len(now) - 1] drops the last byte. -/
theorem relay_concat_misses_last_byte :
    runLoop 3000 (fun _ => [104, 105, 10]) (fun _ => true) 5 0 0 false false =
      LoopResult.finished [SinkEvent.update [104, 105], SinkEvent.update [104, 105]]
        0 false true ∧
    (finalPages [SinkEvent.update [104, 105], SinkEvent.update [104, 105]]).length = 1 ∧
    (finalPages [SinkEvent.update [104, 105], SinkEvent.update [104, 105]]).flatten ≠
      [104, 105, 10] := by
  refine ⟨by decide, by decide, by decide⟩

/-- Claim C3 counterexample: a terminating run (three-byte text, both flags
true) whose final emitted body does not contain the completion marker; the
paginated loop appends no marker text at all on the terminating tick. -/
theorem relay_appends_no_marker :
    runLoop 3000 (fun _ => [104, 105, 10]) (fun _ => true) 5 0 0 false false =
      LoopResult.finished [SinkEvent.update [104, 105], SinkEvent.update [104, 105]]
        0 false true ∧
    hasSub completionMarker [104, 105] = false := by
  refine ⟨by decide, by decide⟩

/-- Claim C7: a drainer treats any read error exactly like clean end of
stream: it stops reading (whatever events would have followed are never
consumed), sets its completion flag to true, keeps the accumulator as is,
and reports nothing. -/
theorem drain_read_error_eq_eof (acc : List Nat) (code : Nat)
    (rest rest' : List ReadEvent) :
    drainLines acc (ReadEvent.readErr code :: rest) = (acc, true) ∧
    drainLines acc (ReadEvent.readErr code :: rest) =
      drainLines acc (ReadEvent.eof :: rest') := by
  exact ⟨rfl, rfl⟩

/-- Claim C9: the unsynchronized `toSend += line + newline` of the two
drainer goroutines is a read-then-store pair; under the interleaving
read A, read B, store A, store B (one line per stream), the accumulator ends
as the second stream's line only: the first stream's line is lost even
though thread A completed its append. -/
theorem race_interleaving_loses_line :
    (raceRun ⟨[], ⟨[[65, 49]], none⟩, ⟨[[66, 49]], none⟩⟩
        [true, false, true, false]).toSend = [66, 49, 10] ∧
    hasSub ([65, 49, 10])
      (raceRun ⟨[], ⟨[[65, 49]], none⟩, ⟨[[66, 49]], none⟩⟩
        [true, false, true, false]).toSend = false ∧
    (raceRun ⟨[], ⟨[[65, 49]], none⟩, ⟨[[66, 49]], none⟩⟩
        [true, false, true, false]).thA = ⟨[], none⟩ := by
  refine ⟨by decide, by decide, by decide⟩

/-- Claim C8: the accumulator of the program is not append-only. The
unsynchronized `toSend += line + newline` is a read of toSend followed by a
separate store; after the interleaving read A, read B, store A the shared
accumulator holds the stdout line, and after the subsequent store B it holds
the stderr line instead: the earlier value is not a prefix of the later one.
Consequently the in-place update bodies now[0 : len(now) - 1] computed from
those two successive snapshots are the two different lines, neither
prefix-consistent nor non-shrinking. -/
theorem race_breaks_append_only :
    (raceRun ⟨[], ⟨[[65, 49]], none⟩, ⟨[[66, 49]], none⟩⟩
        [true, false, true]).toSend = [65, 49, 10] ∧
    (raceRun ⟨[], ⟨[[65, 49]], none⟩, ⟨[[66, 49]], none⟩⟩
        [true, false, true, false]).toSend = [66, 49, 10] ∧
    List.isPrefixOf [65, 49, 10] [66, 49, 10] = false ∧
    goSlice [65, 49, 10] 0 (([65, 49, 10].length : Int) - 1) = some [65, 49] ∧
    goSlice [66, 49, 10] 0 (([66, 49, 10].length : Int) - 1) = some [66, 49] ∧
    List.isPrefixOf [65, 49] [66, 49] = false := by
  refine ⟨by decide, by decide, by decide, by decide, by decide, by decide⟩

/-! ### Lemmas about Split and Join -/

theorem goSplit_ne_nil (s : List Nat) : goSplit s ≠ [] := by
  induction s with
  | nil => simp [goSplit]
  | cons b rest ih =>
    rw [goSplit]
    by_cases hb : b = 32
    · simp [hb]
    · rw [if_neg hb]
      cases hgs : goSplit rest with
      | nil => simp
      | cons p ps => simp

theorem goSplit_cons_space (rest : List Nat) :
    goSplit (32 :: rest) = [] :: goSplit rest := by
  rw [goSplit, if_pos rfl]

theorem goSplit_append_space (p r : List Nat) (hp : 32 ∉ p) :
    goSplit (p ++ 32 :: r) = p :: goSplit r := by
  induction p with
  | nil => simpa using goSplit_cons_space r
  | cons b p' ih =>
    have hb : b ≠ 32 := by
      intro hcon
      exact hp (by simp [hcon])
    have hp' : 32 ∉ p' := fun hcon => hp (by simp [hcon])
    rw [List.cons_append, goSplit, if_neg hb, ih hp']

theorem goJoin_goSplit (s : List Nat) : goJoin (goSplit s) = s := by
  induction s with
  | nil => rfl
  | cons b rest ih =>
    by_cases hb : b = 32
    · subst hb
      rw [goSplit_cons_space]
      cases hgs : goSplit rest with
      | nil => exact absurd hgs (goSplit_ne_nil rest)
      | cons p ps =>
        rw [hgs] at ih
        rw [goJoin]
        simpa using ih
    · rw [goSplit, if_neg hb]
      cases hgs : goSplit rest with
      | nil => exact absurd hgs (goSplit_ne_nil rest)
      | cons p ps =>
        rw [hgs] at ih
        cases ps with
        | nil =>
          simp only [goJoin] at ih ⊢
          rw [ih]
        | cons q qs =>
          rw [goJoin] at ih ⊢
          rw [← ih]
          simp

/-- Claim C4: on any message whose text, after the entity unescaping and the
non-breaking-space normalization, decomposes as two space-free tokens, a
space, and a non-empty remainder, ParseMessage succeeds and returns exactly
that remainder as the readable command (the suffix after discarding the
first two tokens), wrapped in the bash execution string. -/
theorem parse_returns_suffix (message p₁ p₂ rest : List Nat)
    (h : nbspFix (unescapeEntities message) = p₁ ++ 32 :: (p₂ ++ 32 :: rest))
    (hp₁ : 32 ∉ p₁) (hp₂ : 32 ∉ p₂) (hrest : rest ≠ []) :
    ParseMessage message =
      ParseResult.ok (cmdPreBytes ++ b64encode rest ++ cmdPostBytes) rest := by
  have hsplit : goSplit (nbspFix (unescapeEntities message)) = p₁ :: p₂ :: goSplit rest := by
    rw [h, goSplit_append_space _ _ hp₁, goSplit_append_space _ _ hp₂]
  simp only [ParseMessage, hsplit]
  rw [if_neg (by simp)]
  simp only [List.drop_succ_cons, List.drop_zero, goJoin_goSplit]
  rw [if_neg hrest]

/-- Claim C4 witness: the message "a b c" parses to readable command "c". -/
theorem parse_returns_suffix_witness :
    ParseMessage [97, 32, 98, 32, 99] =
      ParseResult.ok (cmdPreBytes ++ b64encode [99] ++ cmdPostBytes) [99] :=
  parse_returns_suffix [97, 32, 98, 32, 99] [97] [98] [99]
    (by decide) (by decide) (by decide) (by decide)

/-- Claim C6: among messages on which the token-dropping slice is defined
(at least two space-delimited tokens after unescaping and normalization),
ParseMessage returns the empty-command error, and no command string, exactly
when the message reduces to the empty string after dropping the first two
tokens and rejoining. -/
theorem parse_error_iff_empty (message : List Nat)
    (h : 2 ≤ (goSplit (nbspFix (unescapeEntities message))).length) :
    ParseMessage message = ParseResult.emptyCmd ↔
      goJoin ((goSplit (nbspFix (unescapeEntities message))).drop 2) = [] := by
  simp only [ParseMessage]
  rw [if_neg (by omega)]
  by_cases hc : goJoin ((goSplit (nbspFix (unescapeEntities message))).drop 2) = []
  · rw [if_pos hc]
    simp [hc]
  · rw [if_neg hc]
    simp [hc]

/-- Claim C6 witness: the message "a b" (two tokens, empty remainder) is
exactly the error case. -/
theorem parse_error_iff_empty_witness :
    ParseMessage [97, 32, 98] = ParseResult.emptyCmd ↔
      goJoin ((goSplit (nbspFix (unescapeEntities [97, 32, 98]))).drop 2) = [] :=
  parse_error_iff_empty [97, 32, 98] (by decide)

/-- Claim C10: on a message with fewer than two space-delimited tokens after
unescaping and normalization, the slice Split(message, " ")[2:] indexes past
the token list, so ParseMessage panics: it returns neither a command nor the
empty-command error. -/
theorem parse_few_tokens_panics (message : List Nat)
    (h : (goSplit (nbspFix (unescapeEntities message))).length < 2) :
    ParseMessage message = ParseResult.panicked := by
  simp only [ParseMessage]
  rw [if_pos h]

/-- Claim C10 witness: the spaceless message "ls" panics. -/
theorem parse_few_tokens_panics_witness :
    ParseMessage [108, 115] = ParseResult.panicked :=
  parse_few_tokens_panics [108, 115] (by decide)

/-! ### Base64 round trip -/

theorem b64untbl_b64tbl : ∀ n, n < 64 → b64untbl (b64tbl n) = some n := by decide

theorem b64tbl_ne_61 : ∀ n, n < 64 → b64tbl n ≠ 61 := by decide

theorem b64decode_b64encode (s : List Nat) (hs : ∀ b ∈ s, b < 256) :
    b64decode (b64encode s) = some s := by
  induction s using b64encode.induct with
  | case1 => rfl
  | case2 a =>
    have ha : a < 256 := hs a (by simp)
    have e1 : b64untbl (b64tbl (a / 4)) = some (a / 4) := b64untbl_b64tbl _ (by omega)
    have e2 : b64untbl (b64tbl (a % 4 * 16)) = some (a % 4 * 16) :=
      b64untbl_b64tbl _ (by omega)
    simp [b64encode, b64decode, e1, e2]
    omega
  | case3 a b =>
    have ha : a < 256 := hs a (by simp)
    have hbb : b < 256 := hs b (by simp)
    have n3 : b64tbl (b % 16 * 4) ≠ 61 := b64tbl_ne_61 _ (by omega)
    have e1 : b64untbl (b64tbl (a / 4)) = some (a / 4) := b64untbl_b64tbl _ (by omega)
    have e2 : b64untbl (b64tbl (a % 4 * 16 + b / 16)) = some (a % 4 * 16 + b / 16) :=
      b64untbl_b64tbl _ (by omega)
    have e3 : b64untbl (b64tbl (b % 16 * 4)) = some (b % 16 * 4) :=
      b64untbl_b64tbl _ (by omega)
    simp [b64encode, b64decode, n3, e1, e2, e3]
    omega
  | case4 a b cc rest ih =>
    have ha : a < 256 := hs a (by simp)
    have hbb : b < 256 := hs b (by simp)
    have hcc : cc < 256 := hs cc (by simp)
    have hrest : ∀ d ∈ rest, d < 256 := fun d hd => hs d (by simp [hd])
    have n3 : b64tbl (b % 16 * 4 + cc / 64) ≠ 61 := b64tbl_ne_61 _ (by omega)
    have n4 : b64tbl (cc % 64) ≠ 61 := b64tbl_ne_61 _ (by omega)
    have e1 : b64untbl (b64tbl (a / 4)) = some (a / 4) := b64untbl_b64tbl _ (by omega)
    have e2 : b64untbl (b64tbl (a % 4 * 16 + b / 16)) = some (a % 4 * 16 + b / 16) :=
      b64untbl_b64tbl _ (by omega)
    have e3 : b64untbl (b64tbl (b % 16 * 4 + cc / 64)) = some (b % 16 * 4 + cc / 64) :=
      b64untbl_b64tbl _ (by omega)
    have e4 : b64untbl (b64tbl (cc % 64)) = some (cc % 64) := b64untbl_b64tbl _ (by omega)
    simp [b64encode, b64decode, n3, n4, e1, e2, e3, e4, ih hrest]
    omega

/-- Claim C5: whenever ParseMessage succeeds, the execution string it returns
is exactly the text "bash -c " followed by the brace-echo group holding the
base64 payload, the base64-decode pipe, and the final "bash"; and decoding
the embedded base64 payload yields exactly the parsed command text. The
byte-range hypothesis states that the command text consists of bytes, which
is the Go string invariant. -/
theorem parse_base64_roundtrip (message cmd readable : List Nat)
    (h : ParseMessage message = ParseResult.ok cmd readable)
    (hb : ∀ b ∈ readable, b < 256) :
    cmd = cmdPreBytes ++ b64encode readable ++ cmdPostBytes ∧
    b64decode (b64encode readable) = some readable := by
  simp only [ParseMessage] at h
  split at h
  · exact absurd h (by simp)
  · split at h
    · exact absurd h (by simp)
    · rw [ParseResult.ok.injEq] at h
      obtain ⟨h1, h2⟩ := h
      subst h2
      exact ⟨h1.symm, b64decode_b64encode _ hb⟩

/-- Claim C5 witness: the message "a b ls" parses to command text "ls"; the
returned execution string is the explicit byte list shown, and the embedded
payload decodes back to "ls". -/
theorem parse_base64_roundtrip_witness :
    [98, 97, 115, 104, 32, 45, 99, 32, 123, 101, 99, 104, 111, 44,
     98, 72, 77, 61,
     125, 124, 123, 98, 97, 115, 101, 54, 52, 44, 45, 100, 125, 124, 98, 97, 115, 104] =
      cmdPreBytes ++ b64encode [108, 115] ++ cmdPostBytes ∧
    b64decode (b64encode [108, 115]) = some [108, 115] :=
  parse_base64_roundtrip [97, 32, 98, 32, 108, 115]
    [98, 97, 115, 104, 32, 45, 99, 32, 123, 101, 99, 104, 111, 44,
     98, 72, 77, 61,
     125, 124, 123, 98, 97, 115, 101, 54, 52, 44, 45, 100, 125, 124, 98, 97, 115, 104]
    [108, 115] (by decide) (by decide)

/-! ### Relay loop: pagination and termination -/

theorem push_eq_finished (e : SinkEvent) (r : LoopResult) (evs : List SinkEvent)
    (i : Nat) (nn hf : Bool)
    (h : LoopResult.push e r = LoopResult.finished evs i nn hf) :
    ∃ evs', r = LoopResult.finished evs' i nn hf ∧ evs = e :: evs' := by
  cases r with
  | finished evs' i₂ nn₂ hf₂ =>
    simp only [LoopResult.push, LoopResult.finished.injEq] at h
    obtain ⟨he, hi, hnn, hhf⟩ := h
    exact ⟨evs', by rw [hi, hnn, hhf], he.symm⟩
  | panicked evs' => simp [LoopResult.push] at h
  | outOfFuel evs' => simp [LoopResult.push] at h

theorem foldl_applyEvent_replies (P sink : List (List Nat)) :
    (P.map SinkEvent.reply).foldl applyEvent sink = sink ++ P := by
  induction P generalizing sink with
  | nil => simp
  | cons p P' ih => simp [applyEvent, ih]

theorem finalPages_update_replies (ch : List Nat) (P : List (List Nat)) :
    finalPages (SinkEvent.update ch :: P.map SinkEvent.reply) = ch :: P := by
  simp [finalPages, applyEvent, foldl_applyEvent_replies, greeting]

theorem runLoop_replyPhase (c : Nat) (text : List Nat) (fa : Nat → Bool) (hc : 1 ≤ c) :
    ∀ fuel i t, c * i < text.length → text.length - c * i ≤ fuel →
      ∃ P : List (List Nat), ∃ i',
        runLoop c (fun _ => text) fa fuel t i true true =
          LoopResult.finished (P.map SinkEvent.reply) i' false true ∧
        P.flatten = (text.drop (c * i)).dropLast ∧
        P.length = (text.length - c * i + c - 1) / c := by
  intro fuel
  induction fuel with
  | zero =>
    intro i t h1 h2
    omega
  | succ fuel ih =>
    intro i t h1 h2
    have hcc : c * (i + 1) = c * i + c := by ring
    by_cases hmore : text.length > c * (i + 1)
    · have hstep := runTick_replyMore c text i hmore
      obtain ⟨P, i', hrun, hflat, hlen⟩ :=
        ih (i + 1) (t + 1) (by omega) (by omega)
      refine ⟨(text.drop (c * i)).take c :: P, i', ?_, ?_, ?_⟩
      · simp only [runLoop, hstep]
        rw [if_neg (by simp)]
        simp only [Bool.true_or]
        rw [hrun]
        rfl
      · have hdd : text.drop (c * (i + 1)) = (text.drop (c * i)).drop c := by
          rw [List.drop_drop]
          congr 1
        rw [List.flatten_cons, hflat, hdd]
        exact take_chunk_dropLast (text.drop (c * i)) c (by simp; omega)
      · have e1 : text.length - c * (i + 1) + c - 1 = text.length - c * i - 1 := by omega
        have e2 : text.length - c * i + c - 1 = text.length - c * i - 1 + c := by omega
        calc ((text.drop (c * i)).take c :: P).length
            = P.length + 1 := by simp
          _ = (text.length - c * (i + 1) + c - 1) / c + 1 := by rw [hlen]
          _ = (text.length - c * i - 1) / c + 1 := by rw [e1]
          _ = (text.length - c * i - 1 + c) / c := (Nat.add_div_right _ (by omega)).symm
          _ = (text.length - c * i + c - 1) / c := by rw [← e2]
    · have hstep := runTick_replyTail c text i hmore h1
      refine ⟨[(text.drop (c * i)).dropLast], i, ?_, by simp, ?_⟩
      · simp only [runLoop, hstep]
        simp [LoopResult.push]
      · have hle : text.length - c * i ≤ c := by omega
        have hpos : 0 < text.length - c * i := by omega
        simp only [List.length_singleton]
        symm
        apply Nat.div_eq_of_lt_le
        · omega
        · omega

/-- Claim C1 (amended): for a fixed accumulated text of n ≥ 1 bytes, page
size c ≥ 1, and both completion flags already true, the relay loop
terminates having produced exactly ceil(n / c) pages, and the concatenation
of the final page bodies equals the accumulated text with its last byte
removed (the tail slice now[charLimit * index : len(now) - 1] drops it); no
completion marker is appended. -/
theorem relay_pages_and_concat (c : Nat) (text : List Nat) (hc : 1 ≤ c)
    (hn : 1 ≤ text.length) (fuel : Nat) (hfuel : text.length + 2 ≤ fuel) :
    ∃ evs i',
      runLoop c (fun _ => text) (fun _ => true) fuel 0 0 false false =
        LoopResult.finished evs i' false true ∧
      (finalPages evs).length = (text.length + c - 1) / c ∧
      (finalPages evs).flatten = text.dropLast := by
  obtain ⟨fuel1, rfl⟩ : ∃ f, fuel = f + 1 := ⟨fuel - 1, by omega⟩
  by_cases hbig : text.length > c
  · have hstep := runTick_boundary c text 0 (by simpa using hbig)
    obtain ⟨P, i', hrun, hflat, hlen⟩ :=
      runLoop_replyPhase c text (fun _ => true) hc fuel1 1 1 (by omega) (by omega)
    refine ⟨SinkEvent.update ((text.drop (c * 0)).take c) :: P.map SinkEvent.reply, i',
      ?_, ?_, ?_⟩
    · simp only [runLoop, hstep]
      rw [if_neg (by simp)]
      simp only [Bool.false_or]
      rw [hrun]
      rfl
    · rw [finalPages_update_replies]
      have e1 : text.length - c * 1 + c - 1 = text.length - 1 := by omega
      have e2 : text.length + c - 1 = text.length - 1 + c := by omega
      calc ((text.drop (c * 0)).take c :: P).length
          = P.length + 1 := by simp
        _ = (text.length - c * 1 + c - 1) / c + 1 := by rw [hlen]
        _ = (text.length - 1) / c + 1 := by rw [e1]
        _ = (text.length - 1 + c) / c := (Nat.add_div_right _ (by omega)).symm
        _ = (text.length + c - 1) / c := by rw [← e2]
    · rw [finalPages_update_replies, List.flatten_cons, hflat]
      have h0 : c * 0 = 0 := by ring
      have h1 : c * 1 = c := by ring
      rw [h0, h1, List.drop_zero]
      exact take_chunk_dropLast text c hbig
  · obtain ⟨fuel2, rfl⟩ : ∃ f, fuel1 = f + 1 := ⟨fuel1 - 1, by omega⟩
    have hstep := runTick_updateTail c text 0 (by simpa using hbig) (by simpa using hn)
    have hfp : finalPages [SinkEvent.update ((text.drop (c * 0)).dropLast),
        SinkEvent.update ((text.drop (c * 0)).dropLast)] =
        [(text.drop (c * 0)).dropLast] := by
      simp [finalPages, applyEvent]
    refine ⟨[SinkEvent.update ((text.drop (c * 0)).dropLast),
      SinkEvent.update ((text.drop (c * 0)).dropLast)], 0, ?_, ?_, ?_⟩
    · simp only [runLoop, hstep]
      rw [if_neg (by simp)]
      simp only [Bool.false_or]
      simp [LoopResult.push]
    · rw [hfp, List.length_singleton]
      symm
      apply Nat.div_eq_of_lt_le
      · omega
      · omega
    · rw [hfp]
      simp

/-- Claim C1 witness: text of three bytes with charLimit 2 gives
ceil(3 / 2) = 2 pages whose bodies concatenate to the text minus its last
byte. -/
theorem relay_pages_and_concat_witness :
    ∃ evs i',
      runLoop 2 (fun _ => [65, 66, 67]) (fun _ => true) 6 0 0 false false =
        LoopResult.finished evs i' false true ∧
      (finalPages evs).length = ([65, 66, 67].length + 2 - 1) / 2 ∧
      (finalPages evs).flatten = [65, 66, 67].dropLast :=
  relay_pages_and_concat 2 [65, 66, 67] (by decide) (by decide) 6 (by decide)

theorem runTick_tail_inv (c : Nat) (now : List Nat) (i : Nat) (nn : Bool)
    (e : SinkEvent) (i₂ : Nat)
    (h : runTick c now i nn = some (e, i₂, false)) :
    ∃ b, goSlice now ((c * i : Nat) : Int) ((now.length : Int) - 1) = some b ∧
      (e = SinkEvent.update b ∨ e = SinkEvent.reply b) ∧ i₂ = i := by
  rw [runTick] at h
  split at h
  · obtain ⟨b, hb, heq⟩ := Option.map_eq_some'.mp h
    simp at heq
  · split at h
    · split at h
      · obtain ⟨b, hb, heq⟩ := Option.map_eq_some'.mp h
        simp at heq
      · obtain ⟨b, hb, heq⟩ := Option.map_eq_some'.mp h
        simp only [Prod.mk.injEq] at heq
        obtain ⟨he, hi2, -⟩ := heq
        exact ⟨b, hb, Or.inr he.symm, hi2.symm⟩
    · obtain ⟨b, hb, heq⟩ := Option.map_eq_some'.mp h
      simp only [Prod.mk.injEq] at heq
      obtain ⟨he, hi2, -⟩ := heq
      exact ⟨b, hb, Or.inl he.symm, hi2.symm⟩

theorem runLoop_finished_inv (c : Nat) (textAt : Nat → List Nat) (fa : Nat → Bool) :
    ∀ fuel t i nn hf evs i' nn' hf',
      runLoop c textAt fa fuel t i nn hf = LoopResult.finished evs i' nn' hf' →
      nn' = false ∧ hf' = true ∧
      (hf = true ∨ ∃ u, t ≤ u ∧ fa u = true) ∧
      ∃ s k b,
        goSlice (textAt s) ((c * k : Nat) : Int) (((textAt s).length : Int) - 1) = some b ∧
        (evs.getLast? = some (SinkEvent.update b) ∨
          evs.getLast? = some (SinkEvent.reply b)) := by
  intro fuel
  induction fuel with
  | zero =>
    intro t i nn hf evs i' nn' hf' h
    simp [runLoop] at h
  | succ fuel ih =>
    intro t i nn hf evs i' nn' hf' h
    rw [runLoop] at h
    cases htick : runTick c (textAt t) i nn with
    | none =>
      rw [htick] at h
      simp at h
    | some v =>
      obtain ⟨e, i₂, nn₂⟩ := v
      rw [htick] at h
      dsimp only at h
      by_cases hbreak : hf = true ∧ nn₂ = false
      · rw [if_pos hbreak] at h
        rw [LoopResult.finished.injEq] at h
        obtain ⟨hevs, hi, hnn, hhf⟩ := h
        obtain ⟨hf1, nn1⟩ := hbreak
        subst nn1
        obtain ⟨b, hsl, hor, hik⟩ := runTick_tail_inv c (textAt t) i nn e i₂ htick
        refine ⟨hnn.symm, by rw [← hhf, hf1], Or.inl hf1, t, i, b, hsl, ?_⟩
        rw [← hevs]
        rcases hor with he | he
        · exact Or.inl (by rw [he]; simp)
        · exact Or.inr (by rw [he]; simp)
      · rw [if_neg hbreak] at h
        obtain ⟨evs', hrec, hevs⟩ := push_eq_finished e _ evs i' nn' hf' h
        obtain ⟨h1, h2, h3, s, k, b, hsl, hlast⟩ :=
          ih (t + 1) i₂ nn₂ (hf || fa t) evs' i' nn' hf' hrec
        refine ⟨h1, h2, ?_, s, k, b, hsl, ?_⟩
        · rcases h3 with h3 | ⟨u, hu, hfa⟩
          · rcases Bool.or_eq_true_iff.mp h3 with h4 | h4
            · exact Or.inl h4
            · exact Or.inr ⟨t, Nat.le_refl t, h4⟩
          · exact Or.inr ⟨u, by omega, hfa⟩
        · subst hevs
          have hne : evs' ≠ [] := by
            rcases hlast with hl | hl <;>
              (intro hcon; subst hcon; simp at hl)
          cases evs' with
          | nil => exact absurd rfl hne
          | cons x xs => simpa using hlast

/-- Claim C3 (amended): starting from hasFinished false, the relay loop can
only terminate in a state with needsNewReply false and hasFinished true,
which requires both stream-completion flags to have been observed true on
some earlier tick; the terminating tick performs one final in-place update
or new reply carrying the tail slice now[charLimit * index : len(now) - 1]
and stops. No completion marker is appended by the paginated loop. -/
theorem relay_termination (c : Nat) (textAt : Nat → List Nat) (finishedAt : Nat → Bool)
    (fuel t i : Nat) (nn : Bool) (evs : List SinkEvent) (i' : Nat) (nn' hf' : Bool)
    (h : runLoop c textAt finishedAt fuel t i nn false = LoopResult.finished evs i' nn' hf') :
    nn' = false ∧ hf' = true ∧ (∃ u, t ≤ u ∧ finishedAt u = true) ∧
    ∃ s k b,
      goSlice (textAt s) ((c * k : Nat) : Int) (((textAt s).length : Int) - 1) = some b ∧
      (evs.getLast? = some (SinkEvent.update b) ∨
        evs.getLast? = some (SinkEvent.reply b)) := by
  obtain ⟨h1, h2, h3, h4⟩ :=
    runLoop_finished_inv c textAt finishedAt fuel t i nn false evs i' nn' hf' h
  refine ⟨h1, h2, ?_, h4⟩
  rcases h3 with h3 | h3
  · exact absurd h3 (by simp)
  · exact h3

/-- Claim C3 witness: the concrete three-byte run terminates; the theorem
yields the flag condition and the final tail emit for it. -/
theorem relay_termination_witness :
    false = false ∧ true = true ∧
      (∃ u, 0 ≤ u ∧ (fun _ : Nat => true) u = true) ∧
      ∃ s k b,
        goSlice ((fun _ : Nat => [104, 105, 10]) s) ((3000 * k : Nat) : Int)
          ((((fun _ : Nat => [104, 105, 10]) s).length : Int) - 1) = some b ∧
        ([SinkEvent.update [104, 105], SinkEvent.update [104, 105]].getLast? =
            some (SinkEvent.update b) ∨
          [SinkEvent.update [104, 105], SinkEvent.update [104, 105]].getLast? =
            some (SinkEvent.reply b)) :=
  relay_termination 3000 (fun _ => [104, 105, 10]) (fun _ => true) 3 0 0 false
    [SinkEvent.update [104, 105], SinkEvent.update [104, 105]] 0 false true (by decide)

/-! ### Accumulator: append-only growth and flag monotonicity -/

theorem updateBody_extend (s u : List Nat) (k : Nat) (hk : k < s.length) :
    ∃ v, (s.drop k).dropLast ++ v = ((s ++ u).drop k).dropLast := by
  rw [List.drop_append_of_le_length (by omega)]
  cases u with
  | nil => exact ⟨[], by simp⟩
  | cons x xs =>
    rw [List.dropLast_append_of_ne_nil _ (by simp)]
    have hne : s.drop k ≠ [] := by
      intro hcon
      have hlen := congrArg List.length hcon
      simp at hlen
      omega
    refine ⟨[(s.drop k).getLast hne] ++ (x :: xs).dropLast, ?_⟩
    rw [← List.append_assoc, List.dropLast_append_getLast hne]

theorem AccStep_mono {a b : AccState} (h : AccStep a b) :
    (∃ u, a.toSend ++ u = b.toSend) ∧
    (a.stdoutFinished = true → b.stdoutFinished = true) ∧
    (a.stderrFinished = true → b.stderrFinished = true) := by
  cases h with
  | outLine l hh => exact ⟨⟨l ++ [10], by simp⟩, fun x => x, fun x => x⟩
  | errLine l hh => exact ⟨⟨l ++ [10], by simp⟩, fun x => x, fun x => x⟩
  | outDone => exact ⟨⟨[], by simp⟩, fun _ => rfl, fun x => x⟩
  | errDone => exact ⟨⟨[], by simp⟩, fun x => x, fun _ => rfl⟩

/-- Under the idealized atomic-append discipline (which the code does not
implement, see race_breaks_append_only): across any number of steps the
accumulator only grows (the earlier value is a prefix of the later value),
the completion flags only go false to true, and consequently any two valid
in-place update bodies now[k : len(now) - 1] computed from the earlier and
the later accumulator at the same page start k are prefix-consistent and
non-shrinking. This is the invariant claim C8 asserts of the program. -/
theorem acc_append_only {s s' : AccState} (h : AccReach s s') :
    (∃ u, s.toSend ++ u = s'.toSend) ∧
    (s.stdoutFinished = true → s'.stdoutFinished = true) ∧
    (s.stderrFinished = true → s'.stderrFinished = true) ∧
    ∀ k b b', k < s.toSend.length →
      goSlice s.toSend (k : Nat) ((s.toSend.length : Int) - 1) = some b →
      goSlice s'.toSend (k : Nat) ((s'.toSend.length : Int) - 1) = some b' →
      ∃ v, b ++ v = b' := by
  have main : (∃ u, s.toSend ++ u = s'.toSend) ∧
      (s.stdoutFinished = true → s'.stdoutFinished = true) ∧
      (s.stderrFinished = true → s'.stderrFinished = true) := by
    induction h with
    | refl => exact ⟨⟨[], by simp⟩, fun x => x, fun x => x⟩
    | tail h₁ h₂ ih =>
      obtain ⟨⟨u, hu⟩, f1, f2⟩ := ih
      obtain ⟨⟨u', hu'⟩, g1, g2⟩ := AccStep_mono h₂
      exact ⟨⟨u ++ u', by rw [← hu', ← hu, List.append_assoc]⟩,
        fun x => g1 (f1 x), fun x => g2 (f2 x)⟩
  obtain ⟨⟨u, hu⟩, f1, f2⟩ := main
  refine ⟨⟨u, hu⟩, f1, f2, ?_⟩
  intro k b b' hk hb hb'
  rw [← hu] at hb'
  rw [goSlice_tail _ _ hk] at hb
  have hk2 : k < (s.toSend ++ u).length := by
    simp
    omega
  rw [goSlice_tail _ _ hk2] at hb'
  obtain ⟨v, hv⟩ := updateBody_extend s.toSend u k hk
  refine ⟨v, ?_⟩
  rw [← Option.some.inj hb, ← Option.some.inj hb']
  exact hv

/-! ### Atomic appends, for contrast with the race of claims C8 and C9 -/

theorem accText_aux (ms : List (List Nat)) :
    ∀ acc : List Nat, ms.foldl (fun a x => a ++ x ++ [10]) acc = acc ++ accText ms := by
  induction ms with
  | nil =>
    intro acc
    simp [accText]
  | cons x xs ih =>
    intro acc
    simp only [accText, List.foldl_cons]
    rw [ih (acc ++ x ++ [10]), ih ([] ++ x ++ [10])]
    simp

theorem accText_cons (x : List Nat) (xs : List (List Nat)) :
    accText (x :: xs) = x ++ [10] ++ accText xs := by
  have h := accText_aux xs ([] ++ x ++ [10])
  simp only [accText, List.foldl_cons] at h ⊢
  rw [h]
  simp only [List.nil_append]

theorem accText_mem (m : List (List Nat)) :
    ∀ l ∈ m, ∃ pre post, accText m = pre ++ (l ++ [10]) ++ post := by
  induction m with
  | nil => simp
  | cons x xs ih =>
    intro l hl
    rcases List.mem_cons.mp hl with rfl | hl
    · refine ⟨[], accText xs, ?_⟩
      rw [accText_cons]
      simp
    · obtain ⟨pre, post, hp⟩ := ih l hl
      refine ⟨x ++ [10] ++ pre, post, ?_⟩
      rw [accText_cons, hp]
      simp

/-- Had each `toSend += line + newline` executed atomically, any interleaving
of the two drainers would keep every line: each drainer's own records appear
in the merged record sequence in order, and every record occurs contiguously
(with its newline) in the final accumulator text. This is the property claim
C9 asserts; the unsynchronized code does not provide it. -/
theorem merged_atomic_preserves (la lb m : List (List Nat)) (h : Merged la lb m) :
    la.Sublist m ∧ lb.Sublist m ∧
    ∀ l ∈ m, ∃ pre post, accText m = pre ++ (l ++ [10]) ++ post := by
  refine ⟨?_, ?_, accText_mem m⟩
  · induction h with
    | nil => exact List.Sublist.refl _
    | left l h ih => exact ih.cons₂ _
    | right l h ih => exact ih.cons _
  · induction h with
    | nil => exact List.Sublist.refl _
    | left l h ih => exact ih.cons _
    | right l h ih => exact ih.cons₂ _
